import Mathlib

/-!
Verification of `scripts/convert_to_tsv.py`: a shallow embedding of the
dataset-resolution engine (archive-aware enumeration, label inference,
annotation resolution, image gathering) together with theorems settling the
specification claims.

Python strings are modelled as Lean `String` (manipulated through `List Char`
so that everything kernel-evaluates); paths use posix separators, matching the
backslash-to-slash normalisation the source performs; machine-level text encoding
is irrelevant here (filenames are ASCII in every construct the code matches).
Python exceptions are modelled as `Except String`.
-/

deriving instance DecidableEq for Except

namespace ConvertToTsv

/-! ### Character and string primitives (models of the Python built-ins used) -/

/-- ASCII decimal digit, modelling the characters matched by `\d` on the
ASCII filenames this program handles. -/
def isAsciiDigitCh (c : Char) : Bool := '0' ≤ c && c ≤ '9'

/-- Word character (letter, digit or underscore), modelling `\w` on ASCII. -/
def isWordCh (c : Char) : Bool := c.isAlpha || isAsciiDigitCh c || c = '_'

/-- ASCII lower-casing of one character, modelling `str.lower` on the ASCII
filenames handled here. -/
def lowerChar (c : Char) : Char :=
  if 'A' ≤ c ∧ c ≤ 'Z' then Char.ofNat (c.toNat + 32) else c

/-- `s.lower()`. -/
def lowerStr (s : String) : String := ⟨s.data.map lowerChar⟩

/-- Split a character list on a separator character; models `str.split(sep)`
for a one-character separator (and `String.splitOn`). -/
def splitOnChar (sep : Char) : List Char → List (List Char)
  | [] => [[]]
  | c :: rest =>
    let r := splitOnChar sep rest
    if c = sep then [] :: r
    else match r with
      | [] => [[c]]
      | h :: t => (c :: h) :: t

/-- Split a path string on `/`. -/
def splitSlash (s : String) : List String :=
  (splitOnChar '/' s.data).map (fun cs => ⟨cs⟩)

/-- `path.replace("\\", "/")` (single-character replacement). -/
def replaceBackslashes (s : String) : String :=
  ⟨s.data.map (fun c => if c = '\\' then '/' else c)⟩

/-- Does the first list start with the second? -/
def listStartsWith [DecidableEq α] : List α → List α → Bool
  | _, [] => true
  | [], _ :: _ => false
  | a :: as, b :: bs => a = b && listStartsWith as bs

/-- Is `pat` a contiguous sublist of `hay`?  Models the Python `pat in hay`
substring test. -/
def listContainsSub [DecidableEq α] (hay pat : List α) : Bool :=
  match hay with
  | [] => listStartsWith ([] : List α) pat
  | _ :: rest => listStartsWith hay pat || listContainsSub rest pat

/-- Python `pat in hay` for strings. -/
def strContains (hay pat : String) : Bool := listContainsSub hay.data pat.data

/-- Python `hay.startswith(pat)`. -/
def strStartsWith (hay pat : String) : Bool := listStartsWith hay.data pat.data

/-- Digits of a numeral string to a natural number; models `int(s)` for a
string of decimal digits. -/
def digitsToNat (cs : List Char) : Nat :=
  cs.foldl (fun a c => a * 10 + (c.toNat - '0'.toNat)) 0

/-! ### Models of the `os.path` functions the script uses (posix flavour) -/

/-- Index of the last occurrence of `c` in `cs`, models `str.rfind` (as an
`Option` instead of `-1`). -/
def lastIdxOf (cs : List Char) (c : Char) : Option Nat :=
  match cs.reverse.findIdx? (· = c) with
  | none => none
  | some k => some (cs.length - 1 - k)

/-- `os.path.splitext`: split off the extension at the last dot, provided a
non-dot character occurs before it in the final path component (so names made
of leading dots, such as `.bashrc`, have no extension). -/
def splitextStr (p : String) : String × String :=
  let cs := p.data
  let sepIdx : Int := match lastIdxOf cs '/' with | none => -1 | some k => (k : Int)
  let dotIdx : Int := match lastIdxOf cs '.' with | none => -1 | some k => (k : Int)
  if sepIdx < dotIdx then
    let between := (cs.drop (sepIdx + 1).toNat).take (dotIdx - sepIdx - 1).toNat
    if between.any (fun c => c ≠ '.') then
      (⟨cs.take dotIdx.toNat⟩, ⟨cs.drop dotIdx.toNat⟩)
    else (p, "")
  else (p, "")

/-- `os.path.basename` (posix): everything after the last `/`. -/
def basenameStr (p : String) : String :=
  match lastIdxOf p.data '/' with
  | none => p
  | some k => ⟨p.data.drop (k + 1)⟩

/-- `os.path.dirname` (posix): everything before the last `/`, with trailing
slashes stripped unless the result is all slashes. -/
def dirnameStr (p : String) : String :=
  match lastIdxOf p.data '/' with
  | none => ""
  | some k =>
    let head := p.data.take (k + 1)
    if head.all (· = '/') then ⟨head⟩
    else ⟨(head.reverse.dropWhile (· = '/')).reverse⟩

/-- `os.path.join` for two components (posix). -/
def pathJoin (a b : String) : String :=
  if strStartsWith b "/" then b
  else if a = "" then b
  else if a.data.getLast? = some '/' then a ++ b
  else a ++ "/" ++ b

/-- `os.path.normpath` (posix) on the paths arising here: collapse `.` and
empty components, resolve `..`; on an absolute path surplus `..` at the root
are dropped.  `os.path.abspath` of an absolute path equals its `normpath`,
which is how it is used below (extraction destinations are absolute). -/
def normalize (p : String) : String :=
  let isAbs := strStartsWith p "/"
  let comps := (splitSlash p).filter (fun c => c ≠ "" && c ≠ ".")
  let newComps := comps.foldl (fun acc c =>
    if c = ".." then
      if isAbs then acc.dropLast
      else match acc.getLast? with
        | some l => if l ≠ ".." then acc.dropLast else acc ++ [c]
        | none => acc ++ [c]
    else acc ++ [c]) []
  let body := String.intercalate "/" newComps
  if isAbs then "/" ++ body
  else if body = "" then "." else body

/-- `os.path.commonprefix` of two strings: their character-wise longest
common prefix. -/
def commonprefix2 (a b : String) : String :=
  ⟨((a.data.zip b.data).takeWhile (fun p => p.1 = p.2)).map (·.1)⟩

end ConvertToTsv

namespace ConvertToTsv

/-! ### The two label regexes

`_synset_label_pattern = ^(?P<LABEL>n\d{8})(?P<EXT>_\d+)?(_(?P<META>\w+))?`
`_coco_label_pattern   = ^(?P<META>COCO_.*)?(?P<LABEL>\d{12})$`

Both are embedded as deterministic matchers.  All groups after `LABEL` in the
synset pattern are optional, so the greedy left-to-right parse never
backtracks; in the COCO pattern `LABEL` is fixed-width and anchored at `$`,
so it is exactly the last twelve characters. -/

/-- The named groups produced by a successful `_synset_label_pattern` match:
a group that did not participate is `none`, mirroring `match.group(...)`
returning `None`. -/
structure SynsetGroups where
  label : String
  ext : Option String
  meta : Option String
deriving DecidableEq, Repr

/-- `_synset_label_pattern.match(s)`. -/
def synset_label_match (s : String) : Option SynsetGroups :=
  match s.data with
  | 'n' :: rest =>
    if (rest.take 8).length = 8 && (rest.take 8).all isAsciiDigitCh then
      let labelCs : List Char := 'n' :: rest.take 8
      let r0 := rest.drop 8
      let extAndRest : Option (List Char) × List Char :=
        match r0 with
        | '_' :: d :: _ =>
          if isAsciiDigitCh d then
            let ds := (r0.drop 1).takeWhile isAsciiDigitCh
            (some ('_' :: ds), r0.drop (1 + ds.length))
          else (none, r0)
        | _ => (none, r0)
      let metaGrp : Option (List Char) :=
        match extAndRest.2 with
        | '_' :: w :: _ =>
          if isWordCh w then some ((extAndRest.2.drop 1).takeWhile isWordCh) else none
        | _ => none
      some { label := ⟨labelCs⟩,
             ext := extAndRest.1.map (fun cs => (⟨cs⟩ : String)),
             meta := metaGrp.map (fun cs => (⟨cs⟩ : String)) }
    else none
  | _ => none

/-- The named groups of a successful `_coco_label_pattern` match. -/
structure CocoGroups where
  meta : Option String
  label : String
deriving DecidableEq, Repr

/-- `_coco_label_pattern.match(s)`: the string must end in twelve decimal
digits (the `LABEL`); anything before them must be a `META` group starting
with `COCO_`, or empty. -/
def coco_label_match (s : String) : Option CocoGroups :=
  let cs := s.data
  let n := cs.length
  if n < 12 then none
  else if ¬ (cs.drop (n - 12)).all isAsciiDigitCh then none
  else if n = 12 then some { meta := none, label := s }
  else if listStartsWith (cs.take (n - 12)) "COCO_".data then
    some { meta := some ⟨cs.take (n - 12)⟩, label := ⟨cs.drop (n - 12)⟩ }
  else none

/-! ### Phase and label guessing -/

/-- `_valid_phases`. -/
def valid_phases : List String := ["train", "test", "val"]

/-- `_valid_extensions`. -/
def valid_extensions : List String := [".jpg", ".png"]

/-- The loop body of `guess_phase`: walk the path components from the last
one backwards, returning the first non-empty component whose lower-casing
contains a phase token as a substring. -/
def guess_phase_go : List String → String
  | [] => ""
  | e :: rest =>
    if e = "" then guess_phase_go rest
    else if valid_phases.any (fun name => strContains (lowerStr e) name) then e
    else guess_phase_go rest

/-- `guess_phase(path)`. -/
def guess_phase (path : String) : String :=
  guess_phase_go (splitSlash (replaceBackslashes path)).reverse

/-- A label is either a string (synset identifier or service lookup result)
or an integer (COCO image number), mirroring the Python dynamic typing. -/
inductive LabelId where
  | str (s : String)
  | num (n : Nat)
deriving DecidableEq, Repr

/-- The `(label, full_label, meta)` triple returned by `guess_label`. -/
structure LabelTriple where
  label : LabelId
  fullLabel : String
  meta : String
deriving DecidableEq, Repr

/-- The synset-lookup collaborator (`Synsetizer.synset_offset`): one operation
mapping a term and a hint to an identifier string.  `Option SynService`
models `_syn_cache`, which is `None` when NLTK Wordnet is unavailable. -/
abbrev SynService := String → String → String

/-- The message of the `TypeError` Python raises when evaluating
`label + None` (the expression `label + match.group(EXT)` with the `EXT`
group absent: `+` binds tighter than `or`, so the trailing `or` with the empty
string cannot rescue it). -/
def typeErrorConcatNone : String :=
  "TypeError: can only concatenate str (not NoneType) to str"

/-- The final fallback section of `guess_label`: try the COCO pattern on the
extension-stripped basename, then delegate to the synset-lookup service
(raising `AttributeError` when `_syn_cache` is `None`). -/
def guess_label_fallback (syn : Option SynService) (path : String) :
    Except String LabelTriple :=
  let elem := (splitextStr (basenameStr path)).1
  match coco_label_match elem with
  | some g => .ok ⟨.num (digitsToNat g.label.data), g.label, "COCO_" ++ g.meta.getD ""⟩
  | none =>
    match syn with
    | none => .error "AttributeError: NoneType object has no attribute synset_offset"
    | some f =>
      let label := f (basenameStr (dirnameStr path)) (basenameStr elem)
      .ok ⟨.str label, label, label⟩

/-- The component loop of `guess_label`: the first non-empty component (from
the end) matching the synset pattern wins; `full_label = label +
match.group(EXT) or empty-string` raises `TypeError` when `EXT` is absent. -/
def guess_label_synset (syn : Option SynService) (path : String) :
    List String → Except String LabelTriple
  | [] => guess_label_fallback syn path
  | e :: rest =>
    if e = "" then guess_label_synset syn path rest
    else match synset_label_match e with
      | some g =>
        match g.ext with
        | some ext => .ok ⟨.str g.label, g.label ++ ext, "IN_" ++ g.meta.getD ""⟩
        | none => .error typeErrorConcatNone
      | none => guess_label_synset syn path rest

/-- `guess_label(path)`. -/
def guess_label (syn : Option SynService) (path : String) : Except String LabelTriple :=
  guess_label_synset syn path (splitSlash (replaceBackslashes path)).reverse

/-! ### Tar extraction safety check (`safe_extract` inside `listarchive`) -/

/-- `is_within_directory(directory, target)`: compare the character-wise
common prefix of the two absolutised paths against the directory. -/
def is_within_directory (directory target : String) : Bool :=
  let absDirectory := normalize directory
  let absTarget := normalize target
  commonprefix2 absDirectory absTarget = absDirectory

/-- `safe_extract(tar, path)` restricted to its observable behaviour: check
every member name before anything is extracted, raising
`Exception("Attempted Path Traversal in Tar File")` if any member fails
`is_within_directory`; extraction itself happens only after the whole scan
passes. -/
def safe_extract (dest : String) (memberNames : List String) : Except String Unit :=
  if memberNames.all (fun m => is_within_directory dest (pathJoin dest m))
  then .ok () else .error "Attempted Path Traversal in Tar File"

/-- The components of a normalized path (no empties). -/
def pathComponents (p : String) : List String :=
  (splitSlash (normalize p)).filter (fun c => c ≠ "")

/-- A member name escapes the destination when the resolved (normalized) path
of `dest/member` does not lie below `dest` component-wise. -/
def resolvedEscapes (dest member : String) : Bool :=
  ¬ (pathComponents dest).isPrefixOf (pathComponents (pathJoin dest member))

end ConvertToTsv

namespace ConvertToTsv

/-! ### Annotation file contents

`listarchive` enumerates paths; the enumerated files are later opened by
`get_coco_bboxes` (JSON) and `get_xml_rects` (VOC XML).  The model pairs each
enumerated path with the data stored at it, standing for what `open`/parse
would read there. -/

/-- One entry of the top-level `annotations` array of a COCO `instances`
file. -/
structure CocoAnn where
  image_id : Int
  category_id : Int
  bbox : List Int
deriving DecidableEq, Repr

/-- One entry of the top-level `categories` array. -/
structure CocoCat where
  id : Int
  name : String
  supercategory : String
deriving DecidableEq, Repr

/-- The parsed content of a COCO `instances` JSON file. -/
structure CocoJson where
  annotations : List CocoAnn
  categories : List CocoCat
deriving DecidableEq, Repr

/-- One `object` element of a VOC XML annotation: its `name`, its
`difficult` flag and the `[xmin, ymin, xmax, ymax]` of each `bndbox`. -/
structure VocObject where
  name : String
  difficult : Int
  bndboxes : List (List Int)
deriving DecidableEq, Repr

/-- What a file on disk holds, as far as this program reads it. -/
inductive FileData where
  | blank
  | jsonData (j : CocoJson)
  | xmlData (objs : List VocObject)
deriving DecidableEq, Repr

/-- A bounding box record: the dict with keys `class` and `rect`. -/
structure Box where
  cls : LabelId
  rect : List Int
deriving DecidableEq, Repr

/-! ### The filesystem model and `listarchive`

Directories and plain files.  A container archive (`.tar`, `.tar.gz`,
`.zip`) is modelled as the directory of its extracted contents — the source
extracts an archive into a sibling `extracted_<basename>` directory (reusing
it when it already exists) and then recurses into that directory, so the
traversal it performs over an archive is exactly a directory traversal of the
extracted tree.  A bare `file` node whose name carries a container extension
stands for an archive with no extracted contents and yields nothing.  The
extraction side effects themselves (the traversal check of `safe_extract`,
marker reuse, deletion of nested archives) are modelled separately above. -/

inductive FS where
  | file (name : String) (data : FileData)
  | dir (name : String) (children : List FS)
deriving Repr

/-- The entry name of a node. -/
def FS.name : FS → String
  | .file n _ => n
  | .dir n _ => n

/-- Hidden entries: names starting with `.` or `$` are skipped by both
`listarchive` and `gather_images`. -/
def isHiddenName (s : String) : Bool := strStartsWith s "." || strStartsWith s "$"

/-- The `extension_pattern` argument of `listarchive`: either the default
`\.\w+` (a dot followed by at least one word character) or one of the
literal patterns `\.json` / `\.xml`; the source matches them with
`re.match(..., re.IGNORECASE)`, i.e. as a case-insensitive prefix of the
extension. -/
inductive ExtPattern where
  | anyExt
  | lit (s : String)
deriving Repr

/-- `re.match(extension_pattern, ext, flags=re.IGNORECASE)` as a Boolean. -/
def matchesExt : ExtPattern → String → Bool
  | .anyExt, e =>
    match e.data with
    | '.' :: c :: _ => isWordCh c
    | _ => false
  | .lit s, e => strStartsWith (lowerStr e) (lowerStr s)

/-- The container extensions recognised by `listarchive`. -/
def containerExts : List String := [".tar", ".tar.gz", ".zip"]

/-- The compound-extension loop of `listarchive`: starting from
the `splitext` split, keep peeling trailing dotted suffixes off the basename,
accumulating them in front of the extension.  The loop makes progress only
while `splitext` actually splits; on a basename of leading dots (e.g.
`".hidden"`) `splitext` returns it unchanged and the source loops forever —
the fuel (never exhausted on terminating inputs, since every productive step
shortens the name) makes the model total and returns the fixed point of the loop
there. -/
def extPeel : Nat → String → String → String × String
  | 0, shortname, ext => (shortname, ext)
  | fuel + 1, shortname, ext =>
    if strContains shortname "." then
      let (s, se) := splitextStr shortname
      extPeel fuel s (se ++ ext)
    else (shortname, ext)

/-- The compound extension of a filename: `splitext`, lower-case the last
extension, then peel remaining dotted suffixes (so `a.tar.gz` has extension
`.tar.gz`). -/
def fileExtOf (fname : String) : String :=
  let pr := splitextStr fname
  (extPeel pr.1.data.length pr.1 (lowerStr pr.2)).2

/-- A `filter_func`, applied to entry names.  The result is `Except` because
applying the filter can raise (`voc_ann_filter` raises `TypeError` when the
label it closes over is an `int`). -/
abbrev FilterFunc := String → Except String Bool

/-- Evaluate a filter over a list of entries, in order, propagating the first
exception; the Boolean says whether at least one entry matched.  Models the
list comprehension `[s0 for s0 in sub_paths if filter_func(s0)]` (which
evaluates the filter on every entry before any recursion happens). -/
def evalFilterAny (f : FilterFunc) : List FS → Except String Bool
  | [] => .ok false
  | c :: rest =>
    match f (FS.name c) with
    | .error e => .error e
    | .ok b =>
      match evalFilterAny f rest with
      | .error e => .error e
      | .ok r => .ok (b || r)

/-- Whether re-evaluating the (pure) filter on this name yields `True`;
on the branch where the comprehension succeeded with at least one match this
coincides with membership in `filtered`. -/
def filterOkTrue (f : FilterFunc) (n : String) : Bool :=
  match f n with
  | .ok true => true
  | _ => false

mutual

/-- `listarchive(path, is_root, extension_pattern, filter_func)`.

`path` is the full path of `fs` (the caller passes the argument string for
the root, `os.path.join` of the parent path for recursive calls).  Yields
`(path, data)` pairs in traversal order; the data component models what
opening the yielded path would read.

Directory branch: list the non-hidden entries; with a `filter_func`, if at
least one entry matches, recurse only into matching entries and pass no
filter deeper; if none matches and there is more than one entry, prune; a
single entry is descended regardless, keeping the filter.  Recursion over the
selected entries is realised by recursing over the original child list with a
`keep` predicate (order is preserved, so this equals recursing over the
filtered list). -/
def listarchive (path : String) (fs : FS) (is_root : Bool) (extPat : ExtPattern)
    (filterFunc : Option FilterFunc) : Except String (List (String × FileData)) :=
  match fs with
  | .file name data =>
    let ext := fileExtOf name
    if containerExts.contains ext then .ok []
    else if matchesExt extPat ext then .ok [(path, data)]
    else .ok []
  | .dir _ children =>
    match filterFunc with
    | none =>
      listarchiveKids path children extPat none (fun c => ¬ isHiddenName (FS.name c))
    | some f =>
      match evalFilterAny f (children.filter (fun c => ¬ isHiddenName (FS.name c))) with
      | .error e => .error e
      | .ok anyMatch =>
        if anyMatch then
          listarchiveKids path children extPat none
            (fun c => ¬ isHiddenName (FS.name c) && filterOkTrue f (FS.name c))
        else if (children.filter (fun c => ¬ isHiddenName (FS.name c))).length > 1 then
          .ok []
        else
          listarchiveKids path children extPat (some f)
            (fun c => ¬ isHiddenName (FS.name c))

/-- Recurse over the children selected by `keep`, concatenating their
yields in order. -/
def listarchiveKids (path : String) (l : List FS) (extPat : ExtPattern)
    (filterFunc : Option FilterFunc) (keep : FS → Bool) :
    Except String (List (String × FileData)) :=
  match l with
  | [] => .ok []
  | c :: rest =>
    if keep c then
      match listarchive (pathJoin path (FS.name c)) c false extPat filterFunc with
      | .error e => .error e
      | .ok r1 =>
        match listarchiveKids path rest extPat filterFunc keep with
        | .error e => .error e
        | .ok r2 => .ok (r1 ++ r2)
    else listarchiveKids path rest extPat filterFunc keep

end

/-- Enumerate each node of a list in order (recursing with the given filter)
and concatenate the yields — the reference meaning of "recurse into exactly
these entries". -/
def catResults (path : String) (extPat : ExtPattern) (filterFunc : Option FilterFunc) :
    List FS → Except String (List (String × FileData))
  | [] => .ok []
  | c :: rest =>
    match listarchive (pathJoin path (FS.name c)) c false extPat filterFunc with
    | .error e => .error e
    | .ok r1 =>
      match catResults path extPat filterFunc rest with
      | .error e => .error e
      | .ok r2 => .ok (r1 ++ r2)


end ConvertToTsv

namespace ConvertToTsv

/-! ### Python dict model

Insertion-ordered association lists with unique keys, mirroring Python dict
semantics: lookup, in-place update of an existing key, and insertion of a new
key at the end. -/

/-- `d[k]` as an `Option` (`None` standing for `KeyError`/`not in`). -/
def dictGet [DecidableEq α] (l : List (α × β)) (k : α) : Option β :=
  (l.find? (fun p => decide (p.1 = k))).map (·.2)

/-- `d[k] = v`: update in place when the key exists, else append. -/
def dictSet [DecidableEq α] (l : List (α × β)) (k : α) (v : β) : List (α × β) :=
  if (l.find? (fun p => decide (p.1 = k))).isSome then
    l.map (fun p => if p.1 = k then (k, v) else p)
  else l ++ [(k, v)]

/-- Append `v` to the list stored under `k`, creating the entry when absent —
the `if image_id not in bboxes: ... else: ....append(...)` idiom. -/
def dictAppend [DecidableEq α] (l : List (α × List β)) (k : α) (v : β) :
    List (α × List β) :=
  match dictGet l k with
  | some vs => dictSet l k (vs ++ [v])
  | none => l ++ [(k, [v])]

/-! ### Annotation parsing -/

/-- Python `==` between the dynamic `label` and an XML `name` string: equal
only when the label is a string equal to it (an `int` never equals a `str`). -/
def labelEqName (label : LabelId) (n : String) : Bool :=
  match label with
  | .str s => s = n
  | .num _ => false

/-- `get_xml_rects(path, label)` on the parsed `object` elements: keep each
object whose `name` equals the label and whose `difficult` flag is falsy,
collecting its `bndbox` rects in order (mismatching and difficult objects are
logged and skipped). -/
def get_xml_rects (objs : List VocObject) (label : LabelId) : List (List Int) :=
  objs.foldl (fun rects obj =>
    if ¬ labelEqName label obj.name then rects
    else if obj.difficult ≠ 0 then rects
    else rects ++ obj.bndboxes) []

/-- The in-place bbox mutation of `get_coco_bboxes`:
`bbox[2] += bbox[0] - 1; bbox[3] += bbox[1] - 1` turns `[x, y, w, h]` into
`[x, y, x+w-1, y+h-1]` (an `IndexError` on a list shorter than 4). -/
def convert_bbox (bbox : List Int) : Except String (List Int) :=
  if bbox.length < 4 then .error "IndexError: list index out of range"
  else
    let b := bbox.set 2 (bbox.getD 2 0 + (bbox.getD 0 0 - 1))
    .ok (b.set 3 (b.getD 3 0 + (b.getD 1 0 - 1)))

/-- The annotation loop of `get_coco_bboxes`: translate the category of each
annotation through the synset service (a missing category id is a `KeyError`),
convert its bbox, and append it to the box list of its image. -/
def get_coco_bboxes_go (syn : SynService) (categories : List (Int × String × String)) :
    List CocoAnn → List (Int × List Box) → Except String (List (Int × List Box))
  | [], acc => .ok acc
  | ann :: rest, acc =>
    match dictGet categories ann.category_id with
    | none => .error "KeyError: category_id"
    | some (cname, parent) =>
      let label := syn cname parent
      match convert_bbox ann.bbox with
      | .error e => .error e
      | .ok rect =>
        get_coco_bboxes_go syn categories rest
          (dictAppend acc ann.image_id { cls := LabelId.str label, rect := rect })

/-- `get_coco_bboxes(path)` on the parsed JSON content: build the
`image_id -> box list` table. -/
def get_coco_bboxes (syn : SynService) (content : CocoJson) :
    Except String (List (Int × List Box)) :=
  let categories := content.categories.map (fun c => (c.id, c.name, c.supercategory))
  get_coco_bboxes_go syn categories content.annotations []

/-! ### `get_boxes` -/

/-- The per-phase cache of parsed COCO files, keyed by basename. -/
abbrev PhaseCache := List (String × List (Int × List Box))

/-- The filter closure `voc_ann_filter(elem): if label in elem: return True`.
Truthiness of `True`/`None` is modelled as `Bool`; when `label` is an `int`,
`label in elem` raises `TypeError`. -/
def voc_ann_filter (label : LabelId) : FilterFunc := fun elem =>
  match label with
  | .str s => .ok (strContains elem s)
  | .num _ => .error "TypeError: 'in <string>' requires string as left operand, not int"

/-- The synthetic whole-image box: class `label`, rect `[0, 0, 0, 0]`. -/
def zeroBox (label : LabelId) : Box := { cls := label, rect := [0, 0, 0, 0] }

/-- The VOC half of `get_boxes`: for each annotation source, enumerate `.xml`
files through `listarchive` with `voc_ann_filter`; the first yielded file
whose basename starts with `full_label` is parsed (a non-XML file there is a
parse error); when no source yields such a file the whole-image `zeroBox` is
returned. -/
def vocSearch (fullLabel : String) (label : LabelId) :
    List FS → Except String (List Box)
  | [] => .ok [zeroBox label]
  | src :: rest =>
    match listarchive (FS.name src) src true (.lit ".xml")
        (some (voc_ann_filter label)) with
    | .error e => .error e
    | .ok files =>
      match files.find? (fun pf => strStartsWith (basenameStr pf.1) fullLabel) with
      | some hit =>
        match hit.2 with
        | .xmlData objs =>
          .ok ((get_xml_rects objs label).map (fun r => { cls := label, rect := r }))
        | _ => .error "xml.etree.ElementTree.ParseError"
      | none => vocSearch fullLabel label rest

/-- The COCO file search of `get_boxes`: for each annotation source in order,
enumerate `.json` files (no filter) and return the first whose basename
contains both `"instances"` and the phase string. -/
def findInstancesFile (phase : String) : List FS → Except String (Option (String × FileData))
  | [] => .ok none
  | src :: rest =>
    match listarchive (FS.name src) src true (.lit ".json") none with
    | .error e => .error e
    | .ok files =>
      match files.find? (fun pf => strContains (basenameStr pf.1) "instances" &&
          strContains (basenameStr pf.1) phase) with
      | some hit => .ok (some hit)
      | none => findInstancesFile phase rest

/-- The message of the exception raised when a COCO label is resolved without
the synset service. -/
def wordnetMissing : String := "Wordnet not found: install nltk and wordnet"

/-- `label not in phase_cache[fname]`, negated: the table is keyed by `int`
image ids, so a non-`int` label is never a member. -/
def labelInTable (table : List (Int × List Box)) (label : LabelId) : Bool :=
  match label with
  | .num n => (dictGet table n).isSome
  | .str _ => false

/-- `phase_cache[fname][label]` (meaningful when `labelInTable`). -/
def labelBoxes (table : List (Int × List Box)) (label : LabelId) : List Box :=
  match label with
  | .num n => (dictGet table n).getD []
  | .str _ => []

/-- `get_boxes(phase, full_label, label, meta, annotations, phase_cache)`.

COCO branch (meta starts with `COCO_`): fail when the synset service is
absent; find the first `instances`+phase `.json` file across the annotation
sources; parse it into the cache when its basename is not cached yet; return
`[]` when the label is not a key of its table, else the stored box list.
When no such file exists, control falls through to the VOC branch.

VOC branch: `vocSearch` above.  The updated cache is returned alongside the
boxes, modelling the in-place mutation of `phase_cache`. -/
def get_boxes (syn : Option SynService) (phase fullLabel : String) (label : LabelId)
    (meta : String) (annSources : List FS) (phase_cache : PhaseCache) :
    Except String (List Box × PhaseCache) :=
  if strStartsWith meta "COCO_" then
    match syn with
    | none => .error wordnetMissing
    | some synf =>
      match findInstancesFile phase annSources with
      | .error e => .error e
      | .ok (some hit) =>
        let fname := basenameStr hit.1
        match dictGet phase_cache fname with
        | some table =>
          if labelInTable table label then .ok (labelBoxes table label, phase_cache)
          else .ok ([], phase_cache)
        | none =>
          match hit.2 with
          | .jsonData j =>
            match get_coco_bboxes synf j with
            | .error e => .error e
            | .ok table =>
              let cache' := dictSet phase_cache fname table
              if labelInTable table label then .ok (labelBoxes table label, cache')
              else .ok ([], cache')
          | _ => .error "json.decoder.JSONDecodeError"
      | .ok none =>
        match vocSearch fullLabel label annSources with
        | .error e => .error e
        | .ok boxes => .ok (boxes, phase_cache)
  else
    match vocSearch fullLabel label annSources with
    | .error e => .error e
    | .ok boxes => .ok (boxes, phase_cache)

end ConvertToTsv

namespace ConvertToTsv

/-! ### `gather_images` -/

/-- Whether a phase-bucket name contains one of the known phase tokens
(case-insensitively) — the test both `guess_phase` and the fallback loop in
`gather_images` perform on a name. -/
def containsPhaseToken (s : String) : Bool :=
  valid_phases.any (fun name => strContains (lowerStr s) name)

/-- An element of a phase bucket: `(path, label, full_label, meta)`. -/
structure ImageRecord where
  path : String
  label : LabelId
  fullLabel : String
  meta : String
deriving DecidableEq, Repr

/-- The mutable accumulators of `gather_images` (plus the diagnostics it
prints): the phase buckets, the per-label counts, and the printed lines. -/
structure GatherState where
  imagedata : List (String × List ImageRecord)
  counts : List (LabelId × Nat)
  logs : List String
deriving DecidableEq, Repr

/-- The no-phase fallback loop

```
for phase in imagedata.keys():
    for name in _valid_phases:
        if name in phase.lower():
            break
```

The `break` leaves only the inner loop, so the outer loop always runs to
completion and `phase` ends up as the **last** key of `imagedata` — whether
or not it contains a phase token — or keeps its previous value (the empty
string) when there are no keys. -/
def assumedPhase (keys : List String) : String :=
  keys.foldl (fun _ k => k) ""

/-- The tail of the per-file handling of `gather_images` once the image is
kept: substitute the assumed phase (and the literal `"training"` when even
that is empty) for an empty guessed phase, printing the diagnostic, then
append the record to its phase bucket. -/
def gatherKeep (s0 phase : String) (t : LabelTriple) (st : GatherState) : GatherState :=
  let phase2 :=
    if phase = "" then
      let p := assumedPhase (st.imagedata.map (·.1))
      if p = "" then "training" else p
    else phase
  let logs2 :=
    if phase = "" then
      st.logs ++ ["Phase " ++ phase2 ++ " was assumed when processing " ++ s0]
    else st.logs
  { imagedata := dictAppend st.imagedata phase2 ⟨s0, t.label, t.fullLabel, t.meta⟩,
    counts := st.counts,
    logs := logs2 }

/-- The per-file handling of `gather_images` for the full path `s0`: guess
the phase, keep only `.jpg`/`.png` files (case-insensitive), resolve the
label, then enforce the cap — a first sighting initialises the count to 1 and
is kept, a sighting at a count below the cap increments and is kept, and a
sighting at a count at or above the cap is dropped without touching the
count. -/
def gatherFile (syn : Option SynService) (maxKeep : ℕ∞) (s0 : String)
    (st : GatherState) : Except String GatherState :=
  let phase := guess_phase s0
  let file_extension := (splitextStr s0).2
  if ¬ valid_extensions.contains (lowerStr file_extension) then .ok st
  else
    match guess_label syn s0 with
    | .error e => .error e
    | .ok t =>
      match dictGet st.counts t.label with
      | none =>
        .ok (gatherKeep s0 phase t { st with counts := dictSet st.counts t.label 1 })
      | some k =>
        if maxKeep ≤ (k : ℕ∞) then .ok st
        else .ok (gatherKeep s0 phase t { st with counts := dictSet st.counts t.label (k + 1) })

mutual

/-- `gather_images(root_path, imagedata, counts, max_keep_per_label)`:
`os.listdir` the root (a file is a `NotADirectoryError`), skip hidden
entries, recurse into subdirectories in order, handle files through
`gatherFile`.  The cap is an extended natural, `∞` modelling the `np.inf`
default of the `float`-typed argument. -/
def gather_images (syn : Option SynService) (maxKeep : ℕ∞) (root_path : String)
    (fs : FS) (st : GatherState) : Except String GatherState :=
  match fs with
  | .file _ _ => .error "NotADirectoryError"
  | .dir _ children => gatherEntries syn maxKeep root_path children st

/-- The `for s0 in os.listdir(root_path)` loop of `gather_images`. -/
def gatherEntries (syn : Option SynService) (maxKeep : ℕ∞) (root_path : String)
    (l : List FS) (st : GatherState) : Except String GatherState :=
  match l with
  | [] => .ok st
  | c :: rest =>
    if isHiddenName (FS.name c) then gatherEntries syn maxKeep root_path rest st
    else
      match c with
      | .dir dn dchildren =>
        match gather_images syn maxKeep (pathJoin root_path dn) (.dir dn dchildren) st with
        | .error e => .error e
        | .ok st1 => gatherEntries syn maxKeep root_path rest st1
      | .file fn _ =>
        match gatherFile syn maxKeep (pathJoin root_path fn) st with
        | .error e => .error e
        | .ok st1 => gatherEntries syn maxKeep root_path rest st1

end

/-- A directory entry that `gather_images` will treat as a visible image file
of label `L` whose guessed phase is `ph`: not hidden, a valid image
extension, and a successful label resolution. -/
def plainImage (syn : Option SynService) (dirPath ph : String) (L : LabelId)
    (nm : String) : Prop :=
  isHiddenName nm = false ∧
  valid_extensions.contains (lowerStr (splitextStr (pathJoin dirPath nm)).2) = true ∧
  guess_phase (pathJoin dirPath nm) = ph ∧
  ∃ fl mt, guess_label syn (pathJoin dirPath nm) = .ok ⟨L, fl, mt⟩

/-- All phase-bucket keys contain a phase token — the invariant maintained
by the run of `main` (it starts from the empty `images` dict). -/
def goodKeys (st : GatherState) : Prop :=
  ∀ kk ∈ st.imagedata.map (·.1), containsPhaseToken kk = true

/-! ### The emission loop of `main` -/

/-- `os.path.relpath(path, root)` in the only situation `main` creates:
the gathered path extends the root. -/
def relpathStr (path root : String) : String :=
  if strStartsWith path (root ++ "/") then ⟨path.data.drop (root.data.length + 1)⟩
  else path

/-- One TSV row: `(full_label, boxes, relative path)`. -/
abbrev Row := String × List Box × String

/-- The per-phase loop of `main`: resolve the boxes of each gathered image
(threading the per-phase cache), skip images whose box list is empty
(printing `No annotation ...`), and write one row per remaining image, in
gathering order. -/
def emitRows (syn : Option SynService) (root_path phase : String) (annSources : List FS) :
    List ImageRecord → PhaseCache → Except String (List Row)
  | [], _ => .ok []
  | r :: rest, cache =>
    match get_boxes syn phase r.fullLabel r.label r.meta annSources cache with
    | .error e => .error e
    | .ok (boxes, cache') =>
      if boxes = [] then emitRows syn root_path phase annSources rest cache'
      else
        match emitRows syn root_path phase annSources rest cache' with
        | .error e => .error e
        | .ok rows => .ok ((r.fullLabel, boxes, relpathStr r.path root_path) :: rows)

end ConvertToTsv

namespace ConvertToTsv

/-! ### Supporting lemmas -/

/-- The character-wise common prefix of `a` and `b` is all of `a` exactly
when `a` is a prefix of `b`. -/
lemma commonprefix_eq_left_iff (a b : List Char) :
    ((a.zip b).takeWhile (fun p => p.1 = p.2)).map (·.1) = a ↔
      listStartsWith b a = true := by
  induction a generalizing b with
  | nil => cases b <;> simp [listStartsWith]
  | cons x as ih =>
    cases b with
    | nil => simp [listStartsWith]
    | cons y bs =>
      by_cases hxy : x = y
      · subst hxy
        simpa [List.zip_cons_cons, List.takeWhile, listStartsWith] using ih bs
      · simp [List.zip_cons_cons, List.takeWhile, listStartsWith, hxy, Ne.symm hxy]

/-- `is_within_directory` is exactly the string-prefix test between the two
normalized paths. -/
lemma is_within_directory_iff (d t : String) :
    is_within_directory d t = true ↔
      strStartsWith (normalize t) (normalize d) = true := by
  unfold is_within_directory
  rw [decide_eq_true_iff]
  unfold commonprefix2 strStartsWith
  constructor
  · intro h
    have : ((((normalize d).data.zip (normalize t).data).takeWhile
        (fun p => p.1 = p.2)).map (·.1)) = (normalize d).data := by
      have := congrArg String.data h
      simpa using this
    exact (commonprefix_eq_left_iff _ _).mp this
  · intro h
    have := (commonprefix_eq_left_iff (normalize d).data (normalize t).data).mpr h
    exact congrArg String.mk this

end ConvertToTsv

namespace ConvertToTsv

/-! ### Claim theorems -/

/-- C10: for every COCO annotation entry with integer bbox `[x, y, w, h]`,
parsing converts it to the rect `[x, y, x+w-1, y+h-1]` (shown both through
`get_coco_bboxes` on an arbitrary single-annotation file and through the
mutation itself); in particular bbox `[10, 20, 30, 40]` converts to rect
`[10, 20, 39, 59]`. -/
theorem c10_coco_bbox_conversion :
    (∀ (syn : SynService) (i catId : Int) (x y w h : Int) (cname parent : String),
      get_coco_bboxes syn ⟨[⟨i, catId, [x, y, w, h]⟩], [⟨catId, cname, parent⟩]⟩ =
        .ok [(i, [⟨.str (syn cname parent), [x, y, x + w - 1, y + h - 1]⟩])]) ∧
    convert_bbox [10, 20, 30, 40] = .ok [10, 20, 39, 59] := by
  refine ⟨fun syn i catId x y w h cname parent => ?_, by decide⟩
  have hconv : convert_bbox [x, y, w, h] = .ok [x, y, x + w - 1, y + h - 1] := by
    rw [show convert_bbox [x, y, w, h] = .ok [x, y, w + (x - 1), h + (y - 1)] from rfl]
    simp only [Except.ok.injEq, List.cons.injEq, true_and, and_true]
    omega
  simp [get_coco_bboxes, get_coco_bboxes_go, dictGet, dictAppend, dictSet, hconv]

/-- C1 (code bug): for a path whose synset-matching component has no `EXT`
group — such as the directory component `n04422727` of the example
`root_path/training/n04422727/blue_cheese.jpg` taken from the own
`gather_images` docstring — `guess_label` raises `TypeError` instead of
returning `full_label = label`: the `full_label` expression evaluates
`label + None` because `+` binds tighter than `or`.  When
`EXT` is present the claimed values are produced. -/
theorem c1_guess_label_ext_missing_raises :
    (∀ syn : Option SynService,
      guess_label syn "root_path/training/n04422727/blue_cheese.jpg" =
        .error typeErrorConcatNone) ∧
    synset_label_match "n04422727" = some ⟨"n04422727", none, none⟩ ∧
    (∀ syn : Option SynService,
      guess_label syn "root_path/training/n04422727_42_bluecheese.jpg" =
        .ok ⟨.str "n04422727", "n04422727_42", "IN_bluecheese"⟩) := by
  have h1 : synset_label_match "blue_cheese.jpg" = none := by decide
  have h2 : synset_label_match "n04422727" = some ⟨"n04422727", none, none⟩ := by decide
  have h3 : synset_label_match "n04422727_42_bluecheese.jpg" =
      some ⟨"n04422727", some "_42", some "bluecheese"⟩ := by decide
  refine ⟨fun syn => ?_, h2, fun syn => ?_⟩
  · unfold guess_label
    rw [show (splitSlash (replaceBackslashes
        "root_path/training/n04422727/blue_cheese.jpg")).reverse
        = ["blue_cheese.jpg", "n04422727", "training", "root_path"] from by decide]
    simp +decide [guess_label_synset, h1, h2]
  · unfold guess_label
    rw [show (splitSlash (replaceBackslashes
        "root_path/training/n04422727_42_bluecheese.jpg")).reverse
        = ["n04422727_42_bluecheese.jpg", "training", "root_path"] from by decide]
    simp +decide [guess_label_synset, h3]

/-- C3 counterexample: the tar member `../extracted_annX/evil` of an archive
extracted into `/data/extracted_ann` resolves to
`/data/extracted_annX/evil` — outside the destination directory — yet
`safe_extract` does not abort, because `os.path.commonprefix` compares
character-wise and `/data/extracted_ann` is a string prefix of
`/data/extracted_annX/evil`. -/
theorem c3_counterexample :
    resolvedEscapes "/data/extracted_ann" "../extracted_annX/evil" = true ∧
    normalize (pathJoin "/data/extracted_ann" "../extracted_annX/evil") =
      "/data/extracted_annX/evil" ∧
    safe_extract "/data/extracted_ann" ["../extracted_annX/evil"] = .ok () := by
  decide

/-- C3 (amended): tar extraction aborts with the fatal
`Attempted Path Traversal in Tar File` error — before anything is extracted —
exactly when the resolved path of some member does not extend the resolved
destination as a character-string prefix; a member resolving into a sibling
path that extends the destination name as a string therefore escapes
undetected. -/
theorem c3_traversal_check_amended (dest : String) (memberNames : List String) :
    safe_extract dest memberNames = .ok () ↔
      ∀ m ∈ memberNames,
        strStartsWith (normalize (pathJoin dest m)) (normalize dest) = true := by
  unfold safe_extract
  by_cases hall : memberNames.all (fun m => is_within_directory dest (pathJoin dest m)) = true
  · rw [if_pos hall]
    simp only [List.all_eq_true] at hall
    simp only [true_iff]
    intro m hm
    exact (is_within_directory_iff _ _).mp (hall m hm)
  · rw [if_neg hall]
    simp only [List.all_eq_true] at hall
    push_neg at hall
    obtain ⟨m, hm, hnot⟩ := hall
    constructor
    · intro h; exact absurd h (by simp)
    · intro h
      exact absurd ((is_within_directory_iff _ _).mpr (h m hm)) hnot

end ConvertToTsv

namespace ConvertToTsv

/-- When some component of the list is non-empty and matches the synset
pattern, the component loop of `guess_label` returns before reaching the
fallback, so its result does not depend on the synset service (nor on the
path it would hand to the fallback). -/
lemma guess_label_synset_indep (syn1 syn2 : Option SynService) (path1 path2 : String) :
    ∀ l : List String, (∃ e ∈ l, e ≠ "" ∧ (synset_label_match e).isSome) →
      guess_label_synset syn1 path1 l = guess_label_synset syn2 path2 l := by
  intro l
  induction l with
  | nil => rintro ⟨e, he, _⟩; exact absurd he (List.not_mem_nil e)
  | cons e rest ih =>
    rintro ⟨w, hw, hne, hmatch⟩
    by_cases hee : e = ""
    · subst hee
      have hwrest : w ∈ rest := by
        rcases List.mem_cons.mp hw with h | h
        · exact absurd h hne
        · exact h
      simp only [guess_label_synset, if_pos rfl]
      exact ih ⟨w, hwrest, hne, hmatch⟩
    · simp only [guess_label_synset, if_neg hee]
      cases hm : synset_label_match e with
      | some g => rfl
      | none =>
        have hwrest : w ∈ rest := by
          rcases List.mem_cons.mp hw with h | h
          · subst h; rw [hm] at hmatch; exact absurd hmatch (by simp)
          · exact h
        exact ih ⟨w, hwrest, hne, hmatch⟩

/-- Witness for the amended C3: a benign member list passes the check. -/
theorem c3_traversal_witness :
    safe_extract "/data/extracted_ann" ["sub/file.xml"] = .ok () :=
  (c3_traversal_check_amended "/data/extracted_ann" ["sub/file.xml"]).mpr
    (by decide)

/-- C9: for every path containing a component matching the synset pattern,
label resolution never consults the synset-lookup service — the result of
`guess_label` is identical for any two services, including an absent one. -/
theorem c9_synset_match_independent_of_service (path : String)
    (h : ∃ e ∈ splitSlash (replaceBackslashes path),
      e ≠ "" ∧ (synset_label_match e).isSome)
    (syn1 syn2 : Option SynService) :
    guess_label syn1 path = guess_label syn2 path := by
  unfold guess_label
  apply guess_label_synset_indep
  obtain ⟨e, he, hprops⟩ := h
  exact ⟨e, List.mem_reverse.mpr he, hprops⟩

/-- Witness for C9 at a concrete path, with the absent service on one side
and a nontrivial service on the other. -/
theorem c9_witness :
    (∃ e ∈ splitSlash (replaceBackslashes "data/n01234567_1.jpg"),
      e ≠ "" ∧ (synset_label_match e).isSome) ∧
    guess_label none "data/n01234567_1.jpg" =
      guess_label (some (fun a b => a ++ b)) "data/n01234567_1.jpg" :=
  ⟨by decide, c9_synset_match_independent_of_service "data/n01234567_1.jpg" (by decide)
    none (some (fun a b => a ++ b))⟩

/-- C5: for a COCO-meta image (meta starting with `COCO_`), when no
annotation source yields a `.json` file whose basename contains both
`instances` and the phase, `get_boxes` neither returns an empty list nor
fails cleanly — it falls through to the VOC XML search, still carrying the
integer COCO label; and when that search finds no file whose basename starts
with `full_label` (and raises nothing), the synthetic zero-rect whole-image
box is produced. -/
theorem c5_coco_fallthrough_to_voc (synf : SynService) (phase fullLabel : String)
    (n : Nat) (meta : String) (annSources : List FS) (cache : PhaseCache)
    (hmeta : strStartsWith meta "COCO_" = true)
    (hnofile : findInstancesFile phase annSources = .ok none) :
    get_boxes (some synf) phase fullLabel (.num n) meta annSources cache =
      (match vocSearch fullLabel (.num n) annSources with
        | .error e => .error e
        | .ok boxes => .ok (boxes, cache)) ∧
    ((∀ src ∈ annSources, ∃ fl,
        listarchive (FS.name src) src true (.lit ".xml")
          (some (voc_ann_filter (.num n))) = .ok fl ∧
        fl.find? (fun pf => strStartsWith (basenameStr pf.1) fullLabel) = none) →
      vocSearch fullLabel (.num n) annSources = .ok [zeroBox (.num n)]) := by
  constructor
  · unfold get_boxes
    rw [if_pos hmeta, hnofile]
  · intro hall
    induction annSources with
    | nil => rfl
    | cons src rest ih =>
      obtain ⟨fl, hfl, hfind⟩ := hall src (List.mem_cons_self src rest)
      have hnorest : findInstancesFile phase rest = .ok none := by
        unfold findInstancesFile at hnofile
        cases hja : listarchive (FS.name src) src true (.lit ".json") none with
        | error e => rw [hja] at hnofile; exact absurd hnofile (by simp)
        | ok jfl =>
          rw [hja] at hnofile
          cases hjf : jfl.find? (fun pf => strContains (basenameStr pf.1) "instances" &&
              strContains (basenameStr pf.1) phase) with
          | some hit => simp [hjf] at hnofile
          | none => simp only [hjf] at hnofile; exact hnofile
      unfold vocSearch
      rw [hfl]
      simp only [hfind]
      exact ih hnorest (fun s hs => hall s (List.mem_cons_of_mem src hs))

end ConvertToTsv

namespace ConvertToTsv

/-- Witness for C5: a COCO-meta image, no `instances` JSON anywhere, a lone
(non-matching) XML file as annotation source: `get_boxes` runs the VOC
search with the integer label and ends at the zero-rect whole-image box. -/
theorem c5_witness :
    get_boxes (some (fun a _ => a)) "train" "000000000007" (.num 7) "COCO_x"
        [FS.file "foo.xml" .blank] [] =
      (match vocSearch "000000000007" (.num 7) [FS.file "foo.xml" .blank] with
        | .error e => .error e
        | .ok boxes => .ok (boxes, ([] : PhaseCache))) ∧
    vocSearch "000000000007" (.num 7) [FS.file "foo.xml" .blank] =
      .ok [zeroBox (.num 7)] :=
  have h := c5_coco_fallthrough_to_voc (fun a _ => a) "train" "000000000007" 7 "COCO_x"
    [FS.file "foo.xml" .blank] [] (by decide) (by decide)
  ⟨h.1, h.2 (by
    intro src hs
    simp only [List.mem_singleton] at hs
    subst hs
    exact ⟨[("foo.xml", FileData.blank)], by decide, by decide⟩)⟩

/-- `dictGet` on the empty dict. -/
lemma dictGet_nil [DecidableEq α] (k : α) (β : Type) :
    dictGet ([] : List (α × β)) k = none := rfl

/-- `dictSet` on the empty dict. -/
lemma dictSet_nil [DecidableEq α] (k : α) (v : β) :
    dictSet ([] : List (α × β)) k v = [(k, v)] := rfl

/-- C4: for a COCO-meta image whose numeric label is absent as an `image_id`
key of the parsed matching `instances` file, `get_boxes` returns the empty
list (no zero-rect fallback is produced), and the emission loop writes no
row for that image. -/
theorem c4_coco_absent_label_skips (synf : SynService) (phase fullLabel rootPath : String)
    (n : Nat) (meta imgPath : String) (annSources : List FS)
    (hitPath : String) (j : CocoJson) (table : List (Int × List Box))
    (hmeta : strStartsWith meta "COCO_" = true)
    (hfind : findInstancesFile phase annSources = .ok (some (hitPath, .jsonData j)))
    (hparse : get_coco_bboxes synf j = .ok table)
    (habsent : dictGet table (n : Int) = none) :
    get_boxes (some synf) phase fullLabel (.num n) meta annSources [] =
      .ok ([], [(basenameStr hitPath, table)]) ∧
    emitRows (some synf) rootPath phase annSources
      [⟨imgPath, .num n, fullLabel, meta⟩] [] = .ok [] := by
  have hbox : get_boxes (some synf) phase fullLabel (.num n) meta annSources [] =
      .ok ([], [(basenameStr hitPath, table)]) := by
    unfold get_boxes
    rw [if_pos hmeta, hfind]
    simp only [dictGet_nil, dictSet_nil, hparse, labelInTable, habsent,
      Option.isSome_none, Bool.false_eq_true, if_false]
  refine ⟨hbox, ?_⟩
  unfold emitRows
  simp only [hbox]
  rfl

end ConvertToTsv

namespace ConvertToTsv

/-- Witness for C4 at a concrete dataset: one `instances_train2014.json`
annotating image 7, a gathered image with COCO label 9 — empty boxes and no
emitted row. -/
theorem c4_witness :
    get_boxes (some (fun a _ => a)) "train" "000000000009" (.num 9) "COCO_x"
        [FS.dir "a" [FS.file "instances_train2014.json"
          (.jsonData ⟨[⟨7, 1, [10, 20, 30, 40]⟩], [⟨1, "cat", "animal"⟩]⟩)]] [] =
      .ok ([], [(basenameStr "a/instances_train2014.json",
                 [(7, [⟨.str "cat", [10, 20, 39, 59]⟩])])]) ∧
    emitRows (some (fun a _ => a)) "root" "train"
      [FS.dir "a" [FS.file "instances_train2014.json"
        (.jsonData ⟨[⟨7, 1, [10, 20, 30, 40]⟩], [⟨1, "cat", "animal"⟩]⟩)]]
      [⟨"img.jpg", .num 9, "000000000009", "COCO_x"⟩] [] = .ok [] :=
  c4_coco_absent_label_skips (fun a _ => a) "train" "000000000009" "root" 9 "COCO_x"
    "img.jpg"
    [FS.dir "a" [FS.file "instances_train2014.json"
      (.jsonData ⟨[⟨7, 1, [10, 20, 30, 40]⟩], [⟨1, "cat", "animal"⟩]⟩)]]
    "a/instances_train2014.json"
    ⟨[⟨7, 1, [10, 20, 30, 40]⟩], [⟨1, "cat", "animal"⟩]⟩
    [(7, [⟨.str "cat", [10, 20, 39, 59]⟩])]
    (by decide) (by decide) (by decide) (by decide)

end ConvertToTsv

namespace ConvertToTsv

/-- Recursing over the children selected by `keep` is recursing over the
filtered child list. -/
lemma listarchiveKids_eq_catResults (path : String) (extPat : ExtPattern)
    (filt : Option FilterFunc) (keep : FS → Bool) (l : List FS) :
    listarchiveKids path l extPat filt keep =
      catResults path extPat filt (l.filter keep) := by
  induction l with
  | nil => rfl
  | cons c rest ih =>
    by_cases hk : keep c = true
    · rw [List.filter_cons_of_pos hk]
      simp only [listarchiveKids, if_pos hk, catResults, ih]
    · rw [List.filter_cons_of_neg (by simpa using hk)]
      simp only [listarchiveKids, if_neg hk, ih]

/-- C7: for a directory visited with a filter: when the filter matches at
least one non-hidden entry, enumeration recurses exactly into the matching
entries, passing no filter deeper; when it matches none and the directory
has more than one (non-hidden) entry, the directory is pruned; when the
directory has exactly one (non-hidden) entry that the filter rejects,
enumeration recurses into it anyway, keeping the filter. -/
theorem c7_filter_scoping (path nm : String) (children : List FS) (isr : Bool)
    (extPat : ExtPattern) (f : FilterFunc) :
    (evalFilterAny f (children.filter (fun c => ¬ isHiddenName (FS.name c))) = .ok true →
      listarchive path (.dir nm children) isr extPat (some f) =
        catResults path extPat none
          ((children.filter (fun c => ¬ isHiddenName (FS.name c))).filter
            (fun c => filterOkTrue f (FS.name c)))) ∧
    (evalFilterAny f (children.filter (fun c => ¬ isHiddenName (FS.name c))) = .ok false →
      (children.filter (fun c => ¬ isHiddenName (FS.name c))).length > 1 →
      listarchive path (.dir nm children) isr extPat (some f) = .ok []) ∧
    (∀ c, children.filter (fun c => ¬ isHiddenName (FS.name c)) = [c] →
      f (FS.name c) = .ok false →
      listarchive path (.dir nm children) isr extPat (some f) =
        listarchive (pathJoin path (FS.name c)) c false extPat (some f)) := by
  refine ⟨?_, ?_, ?_⟩
  · intro hany
    rw [show listarchive path (.dir nm children) isr extPat (some f) =
      (match evalFilterAny f (children.filter (fun c => ¬ isHiddenName (FS.name c))) with
      | Except.error e => Except.error e
      | Except.ok anyMatch =>
        if anyMatch then
          listarchiveKids path children extPat none
            (fun c => ¬ isHiddenName (FS.name c) && filterOkTrue f (FS.name c))
        else if (children.filter (fun c => ¬ isHiddenName (FS.name c))).length > 1 then
          Except.ok []
        else
          listarchiveKids path children extPat (some f)
            (fun c => ¬ isHiddenName (FS.name c))) from rfl]
    rw [hany]
    simp only [if_true]
    rw [listarchiveKids_eq_catResults]
    rw [List.filter_filter]
    congr 1
    apply List.filter_congr
    intro a _
    exact Bool.and_comm _ _
  · intro hany hlen
    rw [show listarchive path (.dir nm children) isr extPat (some f) =
      (match evalFilterAny f (children.filter (fun c => ¬ isHiddenName (FS.name c))) with
      | Except.error e => Except.error e
      | Except.ok anyMatch =>
        if anyMatch then
          listarchiveKids path children extPat none
            (fun c => ¬ isHiddenName (FS.name c) && filterOkTrue f (FS.name c))
        else if (children.filter (fun c => ¬ isHiddenName (FS.name c))).length > 1 then
          Except.ok []
        else
          listarchiveKids path children extPat (some f)
            (fun c => ¬ isHiddenName (FS.name c))) from rfl]
    rw [hany]
    simp only [Bool.false_eq_true, if_false]
    rw [if_pos hlen]
  · intro c hone hfc
    rw [show listarchive path (.dir nm children) isr extPat (some f) =
      (match evalFilterAny f (children.filter (fun c => ¬ isHiddenName (FS.name c))) with
      | Except.error e => Except.error e
      | Except.ok anyMatch =>
        if anyMatch then
          listarchiveKids path children extPat none
            (fun c => ¬ isHiddenName (FS.name c) && filterOkTrue f (FS.name c))
        else if (children.filter (fun c => ¬ isHiddenName (FS.name c))).length > 1 then
          Except.ok []
        else
          listarchiveKids path children extPat (some f)
            (fun c => ¬ isHiddenName (FS.name c))) from rfl]
    rw [hone]
    have hev : evalFilterAny f [c] = .ok false := by
      simp [evalFilterAny, hfc]
    rw [hev]
    simp only [Bool.false_eq_true, if_false, List.length_singleton, gt_iff_lt,
      lt_irrefl, if_false]
    rw [listarchiveKids_eq_catResults, hone]
    simp only [catResults]
    cases listarchive (pathJoin path (FS.name c)) c false extPat (some f) with
    | error e => rfl
    | ok r1 => simp [catResults]

end ConvertToTsv

namespace ConvertToTsv

/-- Witness for C7: the three filter cases at concrete directories — a
two-entry directory with one match, a two-entry directory with no match, and
a single-entry directory with no match. -/
theorem c7_witness :
    (listarchive "r" (FS.dir "r" [FS.dir "keep" [FS.file "x.xml" .blank],
        FS.dir "drop" [FS.file "y.xml" .blank]]) true (.lit ".xml")
        (some (fun n => .ok (strContains n "keep"))) =
      catResults "r" (.lit ".xml") none
        (([FS.dir "keep" [FS.file "x.xml" FileData.blank],
           FS.dir "drop" [FS.file "y.xml" FileData.blank]].filter
            (fun c => ¬ isHiddenName (FS.name c))).filter
          (fun c => filterOkTrue (fun n => .ok (strContains n "keep")) (FS.name c)))) ∧
    (listarchive "r" (FS.dir "r" [FS.dir "a" [FS.file "x.xml" .blank],
        FS.dir "b" [FS.file "y.xml" .blank]]) true (.lit ".xml")
        (some (fun _ => .ok false)) = .ok []) ∧
    (listarchive "r" (FS.dir "r" [FS.dir "a" [FS.file "x.xml" .blank]]) true (.lit ".xml")
        (some (fun n => .ok (strContains n "zzz"))) =
      listarchive (pathJoin "r" (FS.name (FS.dir "a" [FS.file "x.xml" FileData.blank])))
        (FS.dir "a" [FS.file "x.xml" FileData.blank]) false (.lit ".xml")
        (some (fun n => .ok (strContains n "zzz")))) :=
  ⟨(c7_filter_scoping "r" "r" _ true (.lit ".xml") _).1 (by decide),
   (c7_filter_scoping "r" "r" _ true (.lit ".xml") _).2.1 (by decide) (by decide),
   (c7_filter_scoping "r" "r" _ true (.lit ".xml") _).2.2 _ rfl (by decide)⟩

end ConvertToTsv

namespace ConvertToTsv

/-- After `d[k] = v`, looking up `k` yields `v`. -/
lemma dictGet_dictSet_self [DecidableEq α] (l : List (α × β)) (k : α) (v : β) :
    dictGet (dictSet l k v) k = some v := by
  unfold dictSet
  by_cases hfind : (l.find? (fun p => decide (p.1 = k))).isSome = true
  · rw [if_pos hfind]
    induction l with
    | nil => simp at hfind
    | cons p rest ih =>
      by_cases hp : p.1 = k
      · simp [dictGet, List.find?, hp]
      · have hfind' : (rest.find? (fun p => decide (p.1 = k))).isSome = true := by
          simpa [List.find?, hp] using hfind
        simpa [dictGet, List.find?, hp] using ih hfind'
  · rw [if_neg hfind]
    induction l with
    | nil => simp [dictGet, List.find?]
    | cons p rest ih =>
      by_cases hp : p.1 = k
      · exact absurd (by simp [List.find?, hp]) hfind
      · have hfind' : ¬ (rest.find? (fun p => decide (p.1 = k))).isSome = true := by
          simpa [List.find?, hp] using hfind
        simpa [dictGet, List.find?, hp] using ih hfind' 

/-- Appending to the only bucket. -/
lemma dictAppend_single (ph : String) (rs : List ImageRecord) (r : ImageRecord) :
    dictAppend [(ph, rs)] ph r = [(ph, rs ++ [r])] := by
  simp [dictAppend, dictGet, dictSet, List.find?]

/-- Folding `dictAppend` at a single existing bucket appends in order. -/
lemma foldl_dictAppend_single (ph : String) (rs recs : List ImageRecord) :
    recs.foldl (fun d r => dictAppend d ph r) [(ph, rs)] = [(ph, rs ++ recs)] := by
  induction recs generalizing rs with
  | nil => simp
  | cons r rest ih =>
    simp only [List.foldl_cons, dictAppend_single]
    rw [ih]
    simp

/-- The saturation run of the cap counter: processing a directory of image
files of one label `L` while the counter already holds `1 ≤ k` keeps exactly
the first `cap - k` files (appending them to the `ph` bucket in encounter
order), leaves the diagnostics untouched, and raises the counter by the
number of kept files. -/
lemma gather_cap_aux (syn : Option SynService) (c : Nat) (L : LabelId)
    (dirPath ph : String) (hph : ph ≠ "") :
    ∀ (names : List String) (bkts : List (String × List ImageRecord))
      (cnts : List (LabelId × Nat)) (lgs : List String) (k : Nat),
      dictGet cnts L = some k → 1 ≤ k →
      (∀ nm ∈ names, plainImage syn dirPath ph L nm) →
      ∃ (recs : List ImageRecord) (cnts' : List (LabelId × Nat)),
        gatherEntries syn (c : ℕ∞) dirPath
          (names.map (fun nm => FS.file nm FileData.blank)) ⟨bkts, cnts, lgs⟩ =
          .ok ⟨recs.foldl (fun d r => dictAppend d ph r) bkts, cnts', lgs⟩ ∧
        recs.map (·.path) = (names.take (c - k)).map (fun nm => pathJoin dirPath nm) ∧
        dictGet cnts' L = some (k + min names.length (c - k)) := by
  intro names
  induction names with
  | nil =>
    intro bkts cnts lgs k hk _ _
    refine ⟨[], cnts, rfl, by simp, ?_⟩
    simpa using hk
  | cons nm rest ih =>
    intro bkts cnts lgs k hk hk1 hall
    obtain ⟨hhid, hext, hphase, fl, mt, hlabel⟩ := hall nm (List.mem_cons_self nm rest)
    have hstep : gatherEntries syn (c : ℕ∞) dirPath
        ((nm :: rest).map (fun nm => FS.file nm FileData.blank)) ⟨bkts, cnts, lgs⟩ =
        (match gatherFile syn (c : ℕ∞) (pathJoin dirPath nm) ⟨bkts, cnts, lgs⟩ with
          | .error e => .error e
          | .ok st1 => gatherEntries syn (c : ℕ∞) dirPath
              (rest.map (fun nm => FS.file nm FileData.blank)) st1) := by
      simp only [List.map_cons, gatherEntries, FS.name, hhid, Bool.false_eq_true,
        if_false]
    have hfile : gatherFile syn (c : ℕ∞) (pathJoin dirPath nm) ⟨bkts, cnts, lgs⟩ =
        (if (c : ℕ∞) ≤ (k : ℕ∞) then .ok ⟨bkts, cnts, lgs⟩
         else .ok ⟨dictAppend bkts ph ⟨pathJoin dirPath nm, L, fl, mt⟩,
                   dictSet cnts L (k + 1), lgs⟩) := by
      unfold gatherFile
      simp only [hphase, hext, hlabel, hk, eq_self_iff_true, not_true,
        Bool.false_eq_true, if_false]
      by_cases hck : (c : ℕ∞) ≤ (k : ℕ∞)
      · rw [if_pos hck, if_pos hck]
      · rw [if_neg hck, if_neg hck]
        unfold gatherKeep
        simp only [if_neg hph]
    by_cases hck : c ≤ k
    · -- saturated: the file is dropped, the counter untouched
      have hckE : (c : ℕ∞) ≤ (k : ℕ∞) := by exact_mod_cast hck
      obtain ⟨recs, cnts', heq, hpaths, hcount⟩ :=
        ih bkts cnts lgs k hk hk1 (fun x hx => hall x (List.mem_cons_of_mem nm hx))
      refine ⟨recs, cnts', ?_, ?_, ?_⟩
      · rw [hstep, hfile, if_pos hckE]
        exact heq
      · rw [hpaths]
        have hzero : c - k = 0 := by omega
        rw [hzero]
        simp
      · rw [hcount]
        have hzero : c - k = 0 := by omega
        rw [hzero]
        simp
    · -- below the cap: the file is kept, the counter incremented
      have hckE : ¬ (c : ℕ∞) ≤ (k : ℕ∞) := by exact_mod_cast hck
      obtain ⟨recs, cnts', heq, hpaths, hcount⟩ :=
        ih (dictAppend bkts ph ⟨pathJoin dirPath nm, L, fl, mt⟩)
          (dictSet cnts L (k + 1)) lgs (k + 1)
          (dictGet_dictSet_self cnts L (k + 1)) (by omega)
          (fun x hx => hall x (List.mem_cons_of_mem nm hx))
      refine ⟨(⟨pathJoin dirPath nm, L, fl, mt⟩ : ImageRecord) :: recs, cnts', ?_, ?_, ?_⟩
      · rw [hstep, hfile, if_neg hckE]
        exact heq
      · have hsub : c - k = (c - (k + 1)) + 1 := by omega
        simp only [List.map_cons, hsub, List.take_succ_cons, hpaths]
      · rw [hcount]
        have : (k + 1) + min rest.length (c - (k + 1)) =
            k + min (rest.length + 1) (c - k) := by omega
        simp only [this, List.length_cons]

end ConvertToTsv

namespace ConvertToTsv

/-- C6: gathering a directory of image files that all resolve to one label
`L`, with cap `c ≥ 1`, keeps the first sighting (count 1), keeps subsequent
sightings while the count is below the cap, and drops every sighting once
the count reaches the cap without incrementing further: exactly
`min n c` of the `n` files are retained, in encounter order, and the final
count is `min n c`. -/
theorem c6_per_label_cap (syn : Option SynService) (c : Nat) (hc : 1 ≤ c) (L : LabelId)
    (names : List String)
    (hall : ∀ nm ∈ names, plainImage syn "train" "train" L nm) :
    ∃ st : GatherState,
      gather_images syn (c : ℕ∞) "train"
        (FS.dir "train" (names.map (fun nm => FS.file nm FileData.blank)))
        ⟨[], [], []⟩ = .ok st ∧
      ((st.imagedata.map (·.2)).flatten).map (·.path) =
        (names.take c).map (fun nm => pathJoin "train" nm) ∧
      st.logs = [] ∧
      (names ≠ [] → dictGet st.counts L = some (min names.length c)) := by
  cases names with
  | nil => exact ⟨⟨[], [], []⟩, rfl, by simp, rfl, by simp⟩
  | cons nm rest =>
    obtain ⟨hhid, hext, hphase, fl, mt, hlabel⟩ := hall nm (List.mem_cons_self nm rest)
    have hfile : gatherFile syn (c : ℕ∞) (pathJoin "train" nm) ⟨[], [], []⟩ =
        .ok ⟨[("train", [⟨pathJoin "train" nm, L, fl, mt⟩])], [(L, 1)], []⟩ := by
      unfold gatherFile
      simp only [hphase, hext, hlabel, eq_self_iff_true, not_true, Bool.false_eq_true,
        if_false, dictGet_nil]
      unfold gatherKeep
      simp only [if_neg (show ("train" : String) ≠ "" from by decide)]
      rfl
    obtain ⟨recs, cnts', heq, hpaths, hcount⟩ :=
      gather_cap_aux syn c L "train" "train" (by decide) rest
        [("train", [⟨pathJoin "train" nm, L, fl, mt⟩])] [(L, 1)] [] 1
        (by simp [dictGet, List.find?]) le_rfl
        (fun x hx => hall x (List.mem_cons_of_mem nm hx))
    refine ⟨⟨[("train", (⟨pathJoin "train" nm, L, fl, mt⟩ : ImageRecord) :: recs)],
      cnts', []⟩, ?_, ?_, rfl, ?_⟩
    · have hstep : gather_images syn (c : ℕ∞) "train"
          (FS.dir "train" ((nm :: rest).map (fun nm => FS.file nm FileData.blank)))
          ⟨[], [], []⟩ =
          (match gatherFile syn (c : ℕ∞) (pathJoin "train" nm) ⟨[], [], []⟩ with
            | .error e => .error e
            | .ok st1 => gatherEntries syn (c : ℕ∞) "train"
                (rest.map (fun nm => FS.file nm FileData.blank)) st1) := by
        simp only [gather_images, List.map_cons, gatherEntries, FS.name, hhid,
          Bool.false_eq_true, if_false]
      rw [hstep, hfile]
      simp only [heq, foldl_dictAppend_single]
      rfl
    · have hc1 : c = (c - 1) + 1 := by omega
      rw [hc1, List.take_succ_cons]
      simp only [List.map_cons, List.map_nil, List.flatten, hpaths]
      simp
      rw [hpaths, List.map_take]
    · intro _
      rw [hcount]
      have : 1 + min rest.length (c - 1) = min (nm :: rest).length c := by
        simp only [List.length_cons]
        omega
      rw [this]

end ConvertToTsv

namespace ConvertToTsv

/-- Witness for C6: five images of label `n00000001` under `train/` with cap
2 — the first two are retained. -/
theorem c6_witness :
    ∃ st : GatherState,
      gather_images none ((2 : Nat) : ℕ∞) "train"
        (FS.dir "train" (["n00000001_1.jpg", "n00000001_2.jpg", "n00000001_3.jpg",
          "n00000001_4.jpg", "n00000001_5.jpg"].map
            (fun nm => FS.file nm FileData.blank))) ⟨[], [], []⟩ = .ok st ∧
      ((st.imagedata.map (·.2)).flatten).map (·.path) =
        ((["n00000001_1.jpg", "n00000001_2.jpg", "n00000001_3.jpg",
          "n00000001_4.jpg", "n00000001_5.jpg"].take 2).map
            (fun nm => pathJoin "train" nm)) ∧
      st.logs = [] ∧
      (["n00000001_1.jpg", "n00000001_2.jpg", "n00000001_3.jpg",
        "n00000001_4.jpg", "n00000001_5.jpg"] ≠ [] →
        dictGet st.counts (.str "n00000001") =
          some (min (["n00000001_1.jpg", "n00000001_2.jpg", "n00000001_3.jpg",
            "n00000001_4.jpg", "n00000001_5.jpg"].length) 2)) :=
  c6_per_label_cap none 2 (by decide) (.str "n00000001")
    ["n00000001_1.jpg", "n00000001_2.jpg", "n00000001_3.jpg",
     "n00000001_4.jpg", "n00000001_5.jpg"] (by
    intro nm hnm
    simp only [List.mem_cons, List.not_mem_nil, or_false] at hnm
    rcases hnm with rfl | rfl | rfl | rfl | rfl
    · exact ⟨by decide, by decide, by decide, "n00000001_1", "IN_", by decide⟩
    · exact ⟨by decide, by decide, by decide, "n00000001_2", "IN_", by decide⟩
    · exact ⟨by decide, by decide, by decide, "n00000001_3", "IN_", by decide⟩
    · exact ⟨by decide, by decide, by decide, "n00000001_4", "IN_", by decide⟩
    · exact ⟨by decide, by decide, by decide, "n00000001_5", "IN_", by decide⟩)

end ConvertToTsv

namespace ConvertToTsv

/-- C8: the retention cap is global across phases — `counts` is keyed by the
label alone, so once images under `root/train` have brought the count of
label `L` up to the cap, every image of `L` under `root/valdir` is dropped: the `valdir`
phase bucket is never even created, and the count stays at the cap. -/
theorem c8_cap_shared_across_phases (syn : Option SynService) (c : Nat) (hc : 1 ≤ c)
    (L : LabelId) (names1 names2 : List String)
    (hall1 : ∀ nm ∈ names1, plainImage syn (pathJoin "root" "train") "train" L nm)
    (hall2 : ∀ nm ∈ names2, plainImage syn (pathJoin "root" "valdir") "valdir" L nm)
    (hn1 : c ≤ names1.length) :
    ∃ st : GatherState,
      gather_images syn (c : ℕ∞) "root"
        (FS.dir "root"
          [FS.dir "train" (names1.map (fun nm => FS.file nm FileData.blank)),
           FS.dir "valdir" (names2.map (fun nm => FS.file nm FileData.blank))])
        ⟨[], [], []⟩ = .ok st ∧
      st.imagedata.map (fun b => (b.1, b.2.map (·.path))) =
        [("train",
          (names1.take c).map (fun nm => pathJoin (pathJoin "root" "train") nm))] ∧
      dictGet st.counts L = some c := by
  cases names1 with
  | nil => simp at hn1; omega
  | cons nm rest =>
    obtain ⟨hhid, hext, hphase, fl, mt, hlabel⟩ := hall1 nm (List.mem_cons_self nm rest)
    have hn1' : c ≤ rest.length + 1 := by simpa using hn1
    have hfile : gatherFile syn (c : ℕ∞) (pathJoin (pathJoin "root" "train") nm)
        ⟨[], [], []⟩ =
        .ok ⟨[("train", [⟨pathJoin (pathJoin "root" "train") nm, L, fl, mt⟩])],
             [(L, 1)], []⟩ := by
      unfold gatherFile
      simp only [hphase, hext, hlabel, eq_self_iff_true, not_true, Bool.false_eq_true,
        if_false, dictGet_nil]
      unfold gatherKeep
      simp only [if_neg (show ("train" : String) ≠ "" from by decide)]
      rfl
    obtain ⟨recs, cnts', heq, hpaths, hcount⟩ :=
      gather_cap_aux syn c L (pathJoin "root" "train") "train" (by decide) rest
        [("train", [⟨pathJoin (pathJoin "root" "train") nm, L, fl, mt⟩])] [(L, 1)] [] 1
        (by simp [dictGet, List.find?]) le_rfl
        (fun x hx => hall1 x (List.mem_cons_of_mem nm hx))
    have hcnt1 : dictGet cnts' L = some c := by
      rw [hcount]
      congr 1
      omega
    have hrun1 : gather_images syn (c : ℕ∞) (pathJoin "root" "train")
        (FS.dir "train" ((nm :: rest).map (fun nm => FS.file nm FileData.blank)))
        ⟨[], [], []⟩ =
        .ok ⟨[("train", (⟨pathJoin (pathJoin "root" "train") nm, L, fl, mt⟩ :
            ImageRecord) :: recs)], cnts', []⟩ := by
      have hstep : gather_images syn (c : ℕ∞) (pathJoin "root" "train")
          (FS.dir "train" ((nm :: rest).map (fun nm => FS.file nm FileData.blank)))
          ⟨[], [], []⟩ =
          (match gatherFile syn (c : ℕ∞) (pathJoin (pathJoin "root" "train") nm)
              ⟨[], [], []⟩ with
            | .error e => .error e
            | .ok st1 => gatherEntries syn (c : ℕ∞) (pathJoin "root" "train")
                (rest.map (fun nm => FS.file nm FileData.blank)) st1) := by
        simp only [gather_images, List.map_cons, gatherEntries, FS.name, hhid,
          Bool.false_eq_true, if_false]
      rw [hstep, hfile]
      simp only [heq, foldl_dictAppend_single]
      rfl
    obtain ⟨recs2, cnts2, heq2, hpaths2, hcount2⟩ :=
      gather_cap_aux syn c L (pathJoin "root" "valdir") "valdir" (by decide) names2
        [("train", (⟨pathJoin (pathJoin "root" "train") nm, L, fl, mt⟩ :
          ImageRecord) :: recs)] cnts' [] c hcnt1 hc hall2
    have hrecs2 : recs2 = [] := by
      have h0 : c - c = 0 := Nat.sub_self c
      rw [h0] at hpaths2
      simpa using hpaths2
    subst hrecs2
    have hcnt2 : dictGet cnts2 L = some c := by
      rw [hcount2]
      congr 1
      omega
    have hrun2 : gather_images syn (c : ℕ∞) (pathJoin "root" "valdir")
        (FS.dir "valdir" (names2.map (fun nm => FS.file nm FileData.blank)))
        ⟨[("train", (⟨pathJoin (pathJoin "root" "train") nm, L, fl, mt⟩ :
            ImageRecord) :: recs)], cnts', []⟩ =
        .ok ⟨[("train", (⟨pathJoin (pathJoin "root" "train") nm, L, fl, mt⟩ :
            ImageRecord) :: recs)], cnts2, []⟩ := by
      have : gather_images syn (c : ℕ∞) (pathJoin "root" "valdir")
          (FS.dir "valdir" (names2.map (fun nm => FS.file nm FileData.blank)))
          ⟨[("train", (⟨pathJoin (pathJoin "root" "train") nm, L, fl, mt⟩ :
              ImageRecord) :: recs)], cnts', []⟩ =
          gatherEntries syn (c : ℕ∞) (pathJoin "root" "valdir")
            (names2.map (fun nm => FS.file nm FileData.blank))
            ⟨[("train", (⟨pathJoin (pathJoin "root" "train") nm, L, fl, mt⟩ :
              ImageRecord) :: recs)], cnts', []⟩ := rfl
      rw [this, heq2]
      rfl
    refine ⟨⟨[("train", (⟨pathJoin (pathJoin "root" "train") nm, L, fl, mt⟩ :
        ImageRecord) :: recs)], cnts2, []⟩, ?_, ?_, hcnt2⟩
    · rw [show gather_images syn (c : ℕ∞) "root"
          (FS.dir "root"
            [FS.dir "train" ((nm :: rest).map (fun nm => FS.file nm FileData.blank)),
             FS.dir "valdir" (names2.map (fun nm => FS.file nm FileData.blank))])
          ⟨[], [], []⟩ =
          (match gather_images syn (c : ℕ∞) (pathJoin "root" "train")
              (FS.dir "train" ((nm :: rest).map (fun nm => FS.file nm FileData.blank)))
              ⟨[], [], []⟩ with
            | .error e => .error e
            | .ok st1 => gatherEntries syn (c : ℕ∞) "root"
                [FS.dir "valdir" (names2.map (fun nm => FS.file nm FileData.blank))]
                st1) from rfl]
      rw [hrun1]
      show gatherEntries syn (c : ℕ∞) "root"
          [FS.dir "valdir" (names2.map (fun nm => FS.file nm FileData.blank))]
          ⟨[("train", (⟨pathJoin (pathJoin "root" "train") nm, L, fl, mt⟩ :
              ImageRecord) :: recs)], cnts', []⟩ = _
      rw [show gatherEntries syn (c : ℕ∞) "root"
          [FS.dir "valdir" (names2.map (fun nm => FS.file nm FileData.blank))]
          ⟨[("train", (⟨pathJoin (pathJoin "root" "train") nm, L, fl, mt⟩ :
              ImageRecord) :: recs)], cnts', []⟩ =
          (match gather_images syn (c : ℕ∞) (pathJoin "root" "valdir")
              (FS.dir "valdir" (names2.map (fun nm => FS.file nm FileData.blank)))
              ⟨[("train", (⟨pathJoin (pathJoin "root" "train") nm, L, fl, mt⟩ :
                ImageRecord) :: recs)], cnts', []⟩ with
            | .error e => .error e
            | .ok st1 => gatherEntries syn (c : ℕ∞) "root" [] st1) from rfl]
      rw [hrun2]
      rfl
    · simp only [List.map_cons, List.map_nil]
      have hrecords : (pathJoin (pathJoin "root" "train") nm) :: recs.map (·.path) =
          ((nm :: rest).take c).map (fun nm => pathJoin (pathJoin "root" "train") nm) := by
        rw [show c = (c - 1) + 1 from by omega, List.take_succ_cons]
        simp only [List.map_cons, hpaths]
      rw [hrecords]

end ConvertToTsv

namespace ConvertToTsv

/-- Witness for C8: cap 2 filled by two `root/train` images of `n00000001`;
a third image of the same label under `root/valdir` is dropped, leaving no
`valdir` bucket and the shared count at 2. -/
theorem c8_witness :
    ∃ st : GatherState,
      gather_images none ((2 : Nat) : ℕ∞) "root"
        (FS.dir "root"
          [FS.dir "train" (["n00000001_1.jpg", "n00000001_2.jpg"].map
            (fun nm => FS.file nm FileData.blank)),
           FS.dir "valdir" (["n00000001_3.jpg"].map
            (fun nm => FS.file nm FileData.blank))]) ⟨[], [], []⟩ = .ok st ∧
      st.imagedata.map (fun b => (b.1, b.2.map (·.path))) =
        [("train", (["n00000001_1.jpg", "n00000001_2.jpg"].take 2).map
          (fun nm => pathJoin (pathJoin "root" "train") nm))] ∧
      dictGet st.counts (.str "n00000001") = some 2 :=
  c8_cap_shared_across_phases none 2 (by decide) (.str "n00000001")
    ["n00000001_1.jpg", "n00000001_2.jpg"] ["n00000001_3.jpg"]
    (by
      intro nm hnm
      simp only [List.mem_cons, List.not_mem_nil, or_false] at hnm
      rcases hnm with rfl | rfl
      · exact ⟨by decide, by decide, by decide, "n00000001_1", "IN_", by decide⟩
      · exact ⟨by decide, by decide, by decide, "n00000001_2", "IN_", by decide⟩)
    (by
      intro nm hnm
      simp only [List.mem_singleton] at hnm
      subst hnm
      exact ⟨by decide, by decide, by decide, "n00000001_3", "IN_", by decide⟩)
    (by decide)

end ConvertToTsv

namespace ConvertToTsv

/-- A component returned by the `guess_phase` loop contains a phase token. -/
lemma guess_phase_go_token (l : List String) :
    guess_phase_go l = "" ∨ containsPhaseToken (guess_phase_go l) = true := by
  induction l with
  | nil => exact Or.inl rfl
  | cons e rest ih =>
    by_cases he : e = ""
    · simpa [guess_phase_go, he] using ih
    · by_cases ht : valid_phases.any (fun name => strContains (lowerStr e) name) = true
      · right
        simp only [guess_phase_go, if_neg he, if_pos ht]
        exact ht
      · simp only [guess_phase_go, if_neg he, if_neg ht]
        exact ih

/-- `guess_phase` yields the empty string or a token-containing component. -/
lemma guess_phase_token (p : String) :
    guess_phase p = "" ∨ containsPhaseToken (guess_phase p) = true :=
  guess_phase_go_token _

/-- The last-key fold underlying `assumedPhase` lands in the list. -/
lemma foldl_last_mem (keys : List String) :
    ∀ init : String, keys ≠ [] → keys.foldl (fun _ k => k) init ∈ keys := by
  induction keys with
  | nil => intro _ h; exact absurd rfl h
  | cons k rest ih =>
    intro init _
    simp only [List.foldl_cons]
    by_cases hr : rest = []
    · subst hr; simp
    · exact List.mem_cons_of_mem k (ih k hr)

/-- `assumedPhase` of a non-empty key list is one of the keys. -/
lemma assumedPhase_mem (keys : List String) (h : keys ≠ []) :
    assumedPhase keys ∈ keys :=
  foldl_last_mem keys "" h

/-- A key of `dictAppend l k v` is a key of `l` or is `k`. -/
lemma dictAppend_keys [DecidableEq α] (l : List (α × List β)) (k : α) (v : β) :
    ∀ kk ∈ (dictAppend l k v).map (·.1), kk ∈ l.map (·.1) ∨ kk = k := by
  intro kk hkk
  unfold dictAppend at hkk
  cases hget : dictGet l k with
  | none =>
    rw [hget] at hkk
    simp only [List.map_append, List.map_cons, List.map_nil, List.mem_append,
      List.mem_singleton] at hkk
    exact hkk
  | some vs =>
    simp only [hget] at hkk
    have hpres : (l.find? (fun p => decide (p.1 = k))).isSome = true := by
      unfold dictGet at hget
      cases hfind : l.find? (fun p => decide (p.1 = k)) with
      | none => rw [hfind] at hget; simp at hget
      | some pr => simp [hfind]
    unfold dictSet at hkk
    rw [if_pos hpres] at hkk
    simp only [List.map_map, List.mem_map, Function.comp] at hkk
    obtain ⟨p, hpmem, hpe⟩ := hkk
    by_cases hpk : p.1 = k
    · right
      rw [if_pos hpk] at hpe
      exact hpe.symm
    · left
      rw [if_neg hpk] at hpe
      exact hpe ▸ List.mem_map_of_mem (·.1) hpmem

/-- `gatherKeep` preserves the key invariant whenever the phase it is handed
is empty (fallback) or itself token-containing. -/
lemma gatherKeep_goodKeys (s0 phase : String) (t : LabelTriple) (st : GatherState)
    (hg : goodKeys st) (hph : phase = "" ∨ containsPhaseToken phase = true) :
    goodKeys (gatherKeep s0 phase t st) := by
  intro kk hkk
  unfold gatherKeep at hkk
  by_cases hempty : phase = ""
  · simp only [if_pos hempty] at hkk
    set p := assumedPhase (st.imagedata.map (·.1)) with hp
    by_cases hpz : p = ""
    · rw [if_pos hpz] at hkk
      rcases dictAppend_keys _ _ _ kk hkk with h | h
      · exact hg kk h
      · rw [h]; decide
    · rw [if_neg hpz] at hkk
      rcases dictAppend_keys _ _ _ kk hkk with h | h
      · exact hg kk h
      · rw [h, hp]
        apply hg
        apply assumedPhase_mem
        intro hnil
        exact hpz (by rw [hp, hnil]; rfl)
  · simp only [if_neg hempty] at hkk
    rcases dictAppend_keys _ _ _ kk hkk with h | h
    · exact hg kk h
    · rcases hph with h' | h'
      · exact absurd h' hempty
      · rw [h]; exact h'

/-- `gatherFile` preserves the key invariant. -/
lemma gatherFile_goodKeys (syn : Option SynService) (M : ℕ∞) (s0 : String)
    (st st' : GatherState) (hg : goodKeys st)
    (h : gatherFile syn M s0 st = .ok st') : goodKeys st' := by
  simp only [gatherFile] at h
  by_cases hext : valid_extensions.contains (lowerStr (splitextStr s0).2) = true
  · rw [if_neg (not_not_intro hext)] at h
    cases hgl : guess_label syn s0 with
    | error e =>
      simp only [hgl] at h
      exact Except.noConfusion h
    | ok t =>
      simp only [hgl] at h
      cases hdg : dictGet st.counts t.label with
      | none =>
        simp only [hdg] at h
        have hst : st' = gatherKeep s0 (guess_phase s0) t
            { st with counts := dictSet st.counts t.label 1 } :=
          (Except.ok.inj h).symm
        subst hst
        exact gatherKeep_goodKeys s0 (guess_phase s0) t _ hg (guess_phase_token s0)
      | some k =>
        simp only [hdg] at h
        by_cases hM : M ≤ (k : ℕ∞)
        · rw [if_pos hM] at h
          have hst : st' = st := (Except.ok.inj h).symm
          subst hst
          exact hg
        · rw [if_neg hM] at h
          have hst : st' = gatherKeep s0 (guess_phase s0) t
              { st with counts := dictSet st.counts t.label (k + 1) } :=
            (Except.ok.inj h).symm
          subst hst
          exact gatherKeep_goodKeys s0 (guess_phase s0) t _ hg (guess_phase_token s0)
  · rw [if_pos hext] at h
    have hst : st' = st := (Except.ok.inj h).symm
    subst hst
    exact hg

end ConvertToTsv

namespace ConvertToTsv

/-- A whole `gather_images` run preserves the key invariant (by mutual
structural induction over the tree and the child lists). -/
lemma gather_images_goodKeys (syn : Option SynService) (M : ℕ∞) (fs : FS) :
    ∀ (rp : String) (st st' : GatherState), goodKeys st →
      gather_images syn M rp fs st = .ok st' → goodKeys st' := by
  refine @FS.rec
    (fun fs => ∀ (rp : String) (st st' : GatherState), goodKeys st →
      gather_images syn M rp fs st = .ok st' → goodKeys st')
    (fun l => ∀ (rp : String) (st st' : GatherState), goodKeys st →
      gatherEntries syn M rp l st = .ok st' → goodKeys st')
    ?_ ?_ ?_ ?_ fs
  · intro n d rp st st' _ h
    exact Except.noConfusion h
  · intro n children ih rp st st' hg h
    exact ih rp st st' hg h
  · intro rp st st' hg h
    have hst : st' = st := (Except.ok.inj h).symm
    subst hst
    exact hg
  · intro c cs ihc ihcs rp st st' hg h
    by_cases hh : isHiddenName (FS.name c) = true
    · unfold gatherEntries at h
      rw [hh] at h
      simp only [eq_self_iff_true, if_true] at h
      exact ihcs rp st st' hg h
    · cases c with
      | dir dn dch =>
        simp only [FS.name] at hh
        simp only [gatherEntries, FS.name, if_neg hh] at h
        cases hgi : gather_images syn M (pathJoin rp dn) (.dir dn dch) st with
        | error e =>
          simp only [hgi] at h
          exact Except.noConfusion h
        | ok st1 =>
          simp only [hgi] at h
          exact ihcs rp st1 st' (ihc (pathJoin rp dn) st st1 hg hgi) h
      | file fn fd =>
        simp only [FS.name] at hh
        simp only [gatherEntries, FS.name, if_neg hh] at h
        cases hgf : gatherFile syn M (pathJoin rp fn) st with
        | error e =>
          simp only [hgf] at h
          exact Except.noConfusion h
        | ok st1 =>
          simp only [hgf] at h
          exact ihcs rp st1 st' (gatherFile_goodKeys syn M _ st st1 hg hgf) h

/-- C2: an image whose path yields no phase (the `gatherKeep` call with the
empty guessed phase — exactly the branch `gather_images` enters when
`guess_phase` found no `train`/`test`/`val` segment) is appended under an
assumed phase `ph` and the diagnostic `Phase <ph> was assumed ...` is
printed; under the run invariant that every already-observed phase name
contains a phase token (second conjunct: the invariant is preserved by whole
runs, and it holds vacuously for the initial empty dict of `main`), `ph` is an
already-observed — and token-matching — phase name when one exists, and the
literal `"training"` when none does. -/
theorem c2_missing_phase_default :
    (∀ (s0 : String) (t : LabelTriple) (st : GatherState), goodKeys st →
      ∃ ph, (gatherKeep s0 "" t st).imagedata =
          dictAppend st.imagedata ph ⟨s0, t.label, t.fullLabel, t.meta⟩ ∧
        (gatherKeep s0 "" t st).logs =
          st.logs ++ ["Phase " ++ ph ++ " was assumed when processing " ++ s0] ∧
        containsPhaseToken ph = true ∧
        (st.imagedata = [] → ph = "training") ∧
        (st.imagedata ≠ [] → ph ∈ st.imagedata.map (·.1))) ∧
    (∀ (syn : Option SynService) (M : ℕ∞) (rp : String) (fs : FS)
        (st st' : GatherState), goodKeys st →
      gather_images syn M rp fs st = .ok st' → goodKeys st') := by
  constructor
  · intro s0 t st hg
    by_cases hempty : st.imagedata = []
    · refine ⟨"training", ?_, ?_, by decide, fun _ => rfl, fun hne => absurd hempty hne⟩
      · unfold gatherKeep
        simp only [if_pos rfl, hempty, List.map_nil]
        rfl
      · unfold gatherKeep
        simp only [if_pos rfl, hempty, List.map_nil]
        rfl
    · have hkeys : st.imagedata.map (·.1) ≠ [] := by
        intro hnil
        exact hempty (List.map_eq_nil_iff.mp hnil)
      have hmem : assumedPhase (st.imagedata.map (·.1)) ∈ st.imagedata.map (·.1) :=
        assumedPhase_mem _ hkeys
      have htok : containsPhaseToken (assumedPhase (st.imagedata.map (·.1))) = true :=
        hg _ hmem
      have hne : assumedPhase (st.imagedata.map (·.1)) ≠ "" := by
        intro hz
        rw [hz] at htok
        exact absurd htok (by decide)
      refine ⟨assumedPhase (st.imagedata.map (·.1)), ?_, ?_, htok,
        fun hnil => absurd hnil hempty, fun _ => hmem⟩
      · unfold gatherKeep
        simp only [if_pos rfl, if_neg hne, eq_self_iff_true, if_true]
      · unfold gatherKeep
        simp only [if_pos rfl, if_neg hne, eq_self_iff_true, if_true]
  · intro syn M rp fs st st' hg h
    exact gather_images_goodKeys syn M fs rp st st' hg h

/-- Witness for C2: a no-phase image appended to a state with the single
observed phase `training`; and the invariant conclusion for a concrete run. -/
theorem c2_witness :
    (∃ ph, (gatherKeep "r/a.jpg" "" ⟨.str "x", "x", "IN_"⟩
          ⟨[("training", ([] : List ImageRecord))], [], []⟩).imagedata =
        dictAppend [("training", ([] : List ImageRecord))] ph
          ⟨"r/a.jpg", .str "x", "x", "IN_"⟩ ∧
      (gatherKeep "r/a.jpg" "" ⟨.str "x", "x", "IN_"⟩
          ⟨[("training", ([] : List ImageRecord))], [], []⟩).logs =
        ([] : List String) ++
          ["Phase " ++ ph ++ " was assumed when processing " ++ "r/a.jpg"] ∧
      containsPhaseToken ph = true ∧
      ([("training", ([] : List ImageRecord))] =
          ([] : List (String × List ImageRecord)) → ph = "training") ∧
      ([("training", ([] : List ImageRecord))] ≠
          ([] : List (String × List ImageRecord)) →
        ph ∈ [("training", ([] : List ImageRecord))].map (·.1))) ∧
    goodKeys ⟨[], [], []⟩ :=
  ⟨c2_missing_phase_default.1 "r/a.jpg" ⟨.str "x", "x", "IN_"⟩
      ⟨[("training", ([] : List ImageRecord))], [], []⟩ (by
        intro kk hkk
        simp only [List.map_cons, List.map_nil, List.mem_singleton] at hkk
        subst hkk
        decide),
   c2_missing_phase_default.2 none ⊤ "r" (FS.dir "r" []) ⟨[], [], []⟩ ⟨[], [], []⟩
      (by intro kk hkk; simp at hkk) rfl⟩

end ConvertToTsv
